import Mathlib

/-!
Verification of the NumPy feed-forward-network notebook of the
`02456-deep-learning` repository ("Feed Forward Neural Network with
Linear Algebra").

Embedding conventions:
* a NumPy 2-D array of shape (n, m) is a function `Fin n → Fin m → ℝ`;
* `np.dot` is the explicit matrix-product sum `npDot`;
* NumPy row-broadcasting of the `(1, m)` bias arrays is explicit
  indexing of the bias at row 0;
* the integer class labels `Y_train` are `Fin n → Fin o` (in-range) in the
  pure development and `Fin n → ℕ` where fancy-indexing failure is modelled;
* `np.random.randn` initialization and the `matplotlib` plotting calls do
  not affect the quantities the claims speak about; the initial parameters
  are therefore a parameter `p0` of the loop embedding, and plotting is
  omitted;
* `extract_data` and `predict` live in `intro_utils`, which is not part of
  the repository sources; their results are taken as parameters.
-/

namespace FFNLinAlg

noncomputable section

open Finset

/-- Matrix product of 2-D arrays, `A.dot(B)`. -/
def npDot {n d m : ℕ} (A : Fin n → Fin d → ℝ) (B : Fin d → Fin m → ℝ) :
    Fin n → Fin m → ℝ :=
  fun i j => ∑ k, A i k * B k j

/-- Transpose, `A.T`. -/
def npT {n m : ℕ} (A : Fin n → Fin m → ℝ) : Fin m → Fin n → ℝ :=
  fun i j => A j i

/-- The notebook's softmax:
`exp_scores = np.exp(values); exp_scores / np.sum(exp_scores, axis=1, keepdims=True)`. -/
def softmax {n m : ℕ} (values : Fin n → Fin m → ℝ) : Fin n → Fin m → ℝ :=
  fun i j => Real.exp (values i j) / ∑ k, Real.exp (values i k)

/-- The four parameter arrays (`hidden_weights`, `hidden_bias`,
`output_weights`, `output_bias`) that `build_model` stores in its model
dictionary: shapes (d, h), (1, h), (h, o), (1, o). -/
@[ext]
structure Params (d h o : ℕ) where
  HW : Fin d → Fin h → ℝ
  Hb : Fin 1 → Fin h → ℝ
  OW : Fin h → Fin o → ℝ
  OB : Fin 1 → Fin o → ℝ

/-- The notebook's `cross_entropy(model, X, Y, regularization)`.
`predict` is defined in `intro_utils` (not in the repository); the matrix
`probs = predict(model, X, get_probs=True)` is the `predict` argument
applied to `model` and `X`. -/
def cross_entropy {n d dd h o : ℕ}
    (predict : Params d h o → (Fin n → Fin dd → ℝ) → Fin n → Fin o → ℝ)
    (model : Params d h o) (X : Fin n → Fin dd → ℝ) (Y : Fin n → Fin o)
    (regularization : ℝ) : ℝ :=
  let hidden_weights := model.HW
  let output_weights := model.OW
  let probs := predict model X
  let num_examples : ℕ := n
  let corect_logprobs := fun i => -Real.log (probs i (Y i))
  let data_loss := ∑ i, corect_logprobs i
  let data_loss2 := data_loss + (regularization / 2) *
    ((∑ q, ∑ m, hidden_weights q m ^ 2) + (∑ q, ∑ m, output_weights q m ^ 2))
  1 / (num_examples : ℝ) * data_loss2

/-- The value the specification says `cross_entropy` returns, written from
the specification's words: `(1 / len(Y))` times the quantity (sum over
examples of the negated log-probability of the correct class, plus
`(r / 2)` times the sum of squares of `model['HW']` plus the sum of squares
of `model['OW']`); `p` is the probability matrix returned by `predict`. -/
def cross_entropy_spec {n d h o : ℕ} (model : Params d h o)
    (p : Fin n → Fin o → ℝ) (Y : Fin n → Fin o) (r : ℝ) : ℝ :=
  1 / (n : ℝ) * ((∑ i, -Real.log (p i (Y i))) +
    r / 2 * ((∑ q, ∑ m, model.HW q m ^ 2) + (∑ q, ∑ m, model.OW q m ^ 2)))

/-- Line 165: `hidden_values = X_train.dot(hidden_weights) + hidden_bias`
(the (1, h) bias row is broadcast over the n rows). -/
def hidden_values {n d h o : ℕ} (X : Fin n → Fin d → ℝ) (p : Params d h o) :
    Fin n → Fin h → ℝ :=
  fun i j => npDot X p.HW i j + p.Hb 0 j

/-- Line 166: `hidden_activations = np.tanh(hidden_values)`. -/
def hidden_activations {n d h o : ℕ} (X : Fin n → Fin d → ℝ) (p : Params d h o) :
    Fin n → Fin h → ℝ :=
  fun i j => Real.tanh (hidden_values X p i j)

/-- Line 167: `output_values = hidden_activations.dot(output_weights) + output_bias`. -/
def output_values {n d h o : ℕ} (X : Fin n → Fin d → ℝ) (p : Params d h o) :
    Fin n → Fin o → ℝ :=
  fun i j => npDot (hidden_activations X p) p.OW i j + p.OB 0 j

/-- Line 168: `probs = softmax(output_values)`. -/
def probsFwd {n d h o : ℕ} (X : Fin n → Fin d → ℝ) (p : Params d h o) :
    Fin n → Fin o → ℝ :=
  softmax (output_values X p)

/-- Lines 171-172: `output_delta = probs` followed by the in-place
`output_delta[range(len(X_train)), Y_train] -= 1`: the entry in row i,
column `Y_train[i]` is decremented by 1, all other entries are unchanged. -/
def output_delta {n d h o : ℕ} (X : Fin n → Fin d → ℝ) (Y : Fin n → Fin o)
    (p : Params d h o) : Fin n → Fin o → ℝ :=
  fun i j => if j = Y i then probsFwd X p i j - 1 else probsFwd X p i j

/-- The one-hot encoding of the label vector (row i has a single 1, in
column `Y i`), used to state the claims about the backward pass. -/
def onehot {n o : ℕ} (Y : Fin n → Fin o) : Fin n → Fin o → ℝ :=
  fun i j => if Y i = j then 1 else 0

/-- Line 173: `output_weights_delta = (hidden_activations.T).dot(output_delta)`. -/
def output_weights_delta {n d h o : ℕ} (X : Fin n → Fin d → ℝ) (Y : Fin n → Fin o)
    (p : Params d h o) : Fin h → Fin o → ℝ :=
  npDot (npT (hidden_activations X p)) (output_delta X Y p)

/-- Line 174: `output_bias_delta = np.sum(output_delta, axis=0, keepdims=True)`. -/
def output_bias_delta {n d h o : ℕ} (X : Fin n → Fin d → ℝ) (Y : Fin n → Fin o)
    (p : Params d h o) : Fin 1 → Fin o → ℝ :=
  fun _ j => ∑ i, output_delta X Y p i j

/-- Line 177:
`hidden_delta = output_delta.dot(output_weights.T) * (1 - np.power(hidden_activations, 2))`. -/
def hidden_delta {n d h o : ℕ} (X : Fin n → Fin d → ℝ) (Y : Fin n → Fin o)
    (p : Params d h o) : Fin n → Fin h → ℝ :=
  fun i k => npDot (output_delta X Y p) (npT p.OW) i k *
    (1 - hidden_activations X p i k ^ 2)

/-- Line 178: `hidden_weights_delta = np.dot(X_train.T, hidden_delta)`. -/
def hidden_weights_delta {n d h o : ℕ} (X : Fin n → Fin d → ℝ) (Y : Fin n → Fin o)
    (p : Params d h o) : Fin d → Fin h → ℝ :=
  npDot (npT X) (hidden_delta X Y p)

/-- Line 179: `hidden_bias_delta = np.sum(hidden_delta, axis=0)` (no keepdims,
so the result is 1-D of length h). -/
def hidden_bias_delta {n d h o : ℕ} (X : Fin n → Fin d → ℝ) (Y : Fin n → Fin o)
    (p : Params d h o) : Fin h → ℝ :=
  fun k => ∑ i, hidden_delta X Y p i k

/-- Line 184: `output_weights_delta += regularization * output_weights`. -/
def output_weights_delta_reg {n d h o : ℕ} (X : Fin n → Fin d → ℝ)
    (Y : Fin n → Fin o) (regularization : ℝ) (p : Params d h o) :
    Fin h → Fin o → ℝ :=
  fun j k => output_weights_delta X Y p j k + regularization * p.OW j k

/-- Line 185: `hidden_weights_delta += regularization * hidden_weights`. -/
def hidden_weights_delta_reg {n d h o : ℕ} (X : Fin n → Fin d → ℝ)
    (Y : Fin n → Fin o) (regularization : ℝ) (p : Params d h o) :
    Fin d → Fin h → ℝ :=
  fun j k => hidden_weights_delta X Y p j k + regularization * p.HW j k

/-- Lines 190-194, the gradient-descent update performed at the end of an
epoch, written exactly as in the source (`w += -learning_rate * w_delta`,
with the deltas already holding the regularization terms for the two
weight matrices; `hidden_bias_delta` is 1-D and is broadcast over the
single row of `hidden_bias`).  The model dictionary is rebuilt from these
four arrays (lines 196-201), so a `Params` value is the whole state the
loop carries. -/
def epochStep {n d h o : ℕ} (X : Fin n → Fin d → ℝ) (Y : Fin n → Fin o)
    (learning_rate regularization : ℝ) (p : Params d h o) : Params d h o :=
  { HW := fun q m => p.HW q m + -learning_rate * hidden_weights_delta_reg X Y regularization p q m
    Hb := fun r m => p.Hb r m + -learning_rate * hidden_bias_delta X Y p m
    OW := fun q m => p.OW q m + -learning_rate * output_weights_delta_reg X Y regularization p q m
    OB := fun r m => p.OB r m + -learning_rate * output_bias_delta X Y p r m }

/-- The training loop of `build_model` (`for i in range(1, epochs + 1)`),
restricted to the parameter state: the loss bookkeeping and the plotting of
lines 203-214 read but never write the parameters. -/
def trainLoop {n d h o : ℕ} (X : Fin n → Fin d → ℝ) (Y : Fin n → Fin o)
    (learning_rate regularization : ℝ) : ℕ → Params d h o → Params d h o
  | 0, p => p
  | k + 1, p => trainLoop X Y learning_rate regularization k
      (epochStep X Y learning_rate regularization p)

/-- The parameter state at the start of epoch `e + 1` of `build_model`'s
loop, given the initial (randomly drawn) parameters `p0`. -/
def epochParams {n d h o : ℕ} (X : Fin n → Fin d → ℝ) (Y : Fin n → Fin o)
    (learning_rate regularization : ℝ) (p0 : Params d h o) (e : ℕ) :
    Params d h o :=
  trainLoop X Y learning_rate regularization e p0

/-- The summed, unregularized cross-entropy of the forward pass on the
training set: `sum_i -log(probs[i, Y_train[i]])` with
`probs = softmax(output_values)`.  The four deltas of the backward pass
are claimed to be its gradients. -/
def trainLoss {n d h o : ℕ} (X : Fin n → Fin d → ℝ) (Y : Fin n → Fin o)
    (p : Params d h o) : ℝ :=
  ∑ i, -Real.log (probsFwd X p i (Y i))

/-- Perturbation of a single entry of a parameter array: `bump M j k t`
adds `t` to entry (j, k) and leaves every other entry unchanged.  The
derivative at `t = 0` of the loss along this family is the partial
derivative of the loss with respect to entry (j, k). -/
def bump {r c : ℕ} (M : Fin r → Fin c → ℝ) (j : Fin r) (k : Fin c) (t : ℝ) :
    Fin r → Fin c → ℝ :=
  fun q m => M q m + (if q = j then (1 : ℝ) else 0) * (if m = k then (1 : ℝ) else 0) * t

/-- A NumPy array value as stored in the model dictionary: a shape together
with the entries. -/
structure NDArr where
  rows : ℕ
  cols : ℕ
  entry : Fin rows → Fin cols → ℝ

/-- Lines 142-147: the model dictionary built at initialization, written
with the exact key strings of the source. -/
def initialModelDict {d h o : ℕ} (hidden_weights : Fin d → Fin h → ℝ)
    (hidden_bias : Fin 1 → Fin h → ℝ) (output_weights : Fin h → Fin o → ℝ)
    (output_bias : Fin 1 → Fin o → ℝ) : List (String × NDArr) :=
  [("HW", ⟨d, h, hidden_weights⟩), ("Hb", ⟨1, h, hidden_bias⟩),
   ("OW", ⟨h, o, output_weights⟩), ("OB", ⟨1, o, output_bias⟩)]

/-- Lines 196-201: the model dictionary rebuilt at the end of every epoch of
the training loop, written with the exact key strings of the source. -/
def epochModelDict {d h o : ℕ} (hidden_weights : Fin d → Fin h → ℝ)
    (hidden_bias : Fin 1 → Fin h → ℝ) (output_weights : Fin h → Fin o → ℝ)
    (output_bias : Fin 1 → Fin o → ℝ) : List (String × NDArr) :=
  [("HW", ⟨d, h, hidden_weights⟩), ("HB", ⟨1, h, hidden_bias⟩),
   ("OW", ⟨h, o, output_weights⟩), ("OB", ⟨1, o, output_bias⟩)]

/-- The keys of a model dictionary. -/
def dictKeys (m : List (String × NDArr)) : List String :=
  m.map Prod.fst

/-- A code cell of a notebook: the top-level names its evaluation binds and
the free names its code refers to (names that are neither bound by the cell
itself nor Python builtins). -/
structure CodeCell where
  defines : List String
  uses : List String

/-- The four code cells of the linear-algebra notebook, in order.
Cell 0 is the import cell (`intro_utils` is a star import; the names the
notebook takes from it are listed).  Cell 1 defines `softmax` and
`cross_entropy`.  Cell 2 defines `build_model`.  Cell 3 builds the
two-moons data and calls `build_model`. -/
def linalgCells : List CodeCell :=
  [{ defines := ["sys", "os", "matplotlib", "np", "plt", "extract_data",
                 "mesh_grid", "plot", "plot_error", "predict", "clear_output",
                 "display", "make_moons", "precision_score", "accuracy_score"],
     uses := [] },
   { defines := ["softmax", "cross_entropy"],
     uses := ["np", "predict"] },
   { defines := ["build_model"],
     uses := ["extract_data", "np", "plt", "mesh_grid", "softmax",
              "cross_entropy", "plot", "plot_error", "display"] },
   { defines := ["train_size", "test_size", "X_train", "Y_train", "X_test",
                 "Y_test", "train_data", "test_data", "LEARNING_RATE",
                 "REGULARIZATION", "HIDDEN_DIMENSIONS", "EPOCHS"],
     uses := ["make_moons", "build_model"] }]

/-- A notebook's cells are independent when no cell refers to a name that
another cell of the same notebook defines. -/
def cellsIndependent (nb : List CodeCell) : Prop :=
  ∀ i : Fin nb.length, ∀ j : Fin nb.length, i ≠ j →
    ∀ nm ∈ (nb.get i).uses, nm ∉ (nb.get j).defines

instance (nb : List CodeCell) : Decidable (cellsIndependent nb) := by
  unfold cellsIndependent; infer_instance

/-- NumPy fancy indexing `probs[range(num_examples), Y]` over integer labels:
it raises IndexError when some label is out of range, and otherwise yields
the vector of selected entries. -/
def fancyIndex {n o : ℕ} (probs : Fin n → Fin o → ℝ) (Y : Fin n → ℕ) :
    Except String (Fin n → ℝ) :=
  if h : ∀ i, Y i < o then Except.ok (fun i => probs i ⟨Y i, h i⟩)
  else Except.error ("IndexError")

/-- Version of `cross_entropy` with the fallible steps made explicit: the `predict`
call (whatever exception it raises is its `Except.error`), the fancy
indexing of `probs`, and the final `1. / num_examples` (a Python
ZeroDivisionError when `Y` is empty).  The body never catches: each
failure is returned to the caller unchanged. -/
def cross_entropyE {n d h o : ℕ}
    (predictResult : Except String (Fin n → Fin o → ℝ))
    (model : Params d h o) (Y : Fin n → ℕ) (regularization : ℝ) :
    Except String ℝ :=
  match predictResult with
  | Except.error e => Except.error e
  | Except.ok probs =>
    match fancyIndex probs Y with
    | Except.error e => Except.error e
    | Except.ok selected =>
      if n = 0 then Except.error ("ZeroDivisionError")
      else Except.ok (1 / (n : ℝ) * ((∑ i, -Real.log (selected i)) +
        regularization / 2 *
          ((∑ q, ∑ m, model.HW q m ^ 2) + (∑ q, ∑ m, model.OW q m ^ 2))))

/-- Version of `build_model` with its fallible data extraction made explicit:
`extract_data` lives in `intro_utils` (outside the repository), so its two
results are `Except` parameters; any exception either call raises is
returned to `build_model`'s caller unchanged, and otherwise the training
loop runs from the initial parameters `p0`. -/
def build_modelE {n m d h o : ℕ}
    (trainExtract : Except String ((Fin n → Fin d → ℝ) × (Fin n → Fin o)))
    (testExtract : Except String ((Fin m → Fin d → ℝ) × (Fin m → Fin o)))
    (epochs : ℕ) (learning_rate regularization : ℝ) (p0 : Params d h o) :
    Except String (Params d h o) :=
  match trainExtract with
  | Except.error e => Except.error e
  | Except.ok td =>
    match testExtract with
    | Except.error e => Except.error e
    | Except.ok _ =>
        Except.ok (trainLoop td.1 td.2 learning_rate regularization epochs p0)

/-- A store for the aliasing behaviour of lines 168-172: a heap of n-by-o
arrays addressed by naturals, an environment binding Python variable names
to addresses, and the next fresh address. -/
structure Store (n o : ℕ) where
  heap : ℕ → Fin n → Fin o → ℝ
  env : String → ℕ
  next : ℕ

/-- Statement `x = <fresh array v>`: allocate a new array object and bind `x` to it. -/
def assignFresh {n o : ℕ} (s : Store n o) (x : String) (v : Fin n → Fin o → ℝ) :
    Store n o :=
  { heap := fun a => if a = s.next then v else s.heap a
    env := fun y => if y = x then s.next else s.env y
    next := s.next + 1 }

/-- Statement `x = y` between array variables: Python binds `x` to the same object,
copying nothing. -/
def assignAlias {n o : ℕ} (s : Store n o) (x y : String) : Store n o :=
  { s with env := fun z => if z = x then s.env y else s.env z }

/-- Statement `x[range(n), Y] -= 1`: in-place mutation of the array object `x` is
bound to, subtracting 1 at entry (i, Y i) of every row i. -/
def subOneAt {n o : ℕ} (s : Store n o) (x : String) (Y : Fin n → Fin o) :
    Store n o :=
  { s with heap := fun a =>
      if a = s.env x then
        fun i j => s.heap a i j - (if Y i = j then 1 else 0)
      else s.heap a }

/-- Lines 168, 171 and 172 run in order on a store:
`probs = softmax(output_values)`, then `output_delta = probs`, then
`output_delta[range(len(X_train)), Y_train] -= 1`. -/
def backpropAliasSteps {n o : ℕ} (s : Store n o) (ov : Fin n → Fin o → ℝ)
    (Y : Fin n → Fin o) : Store n o :=
  subOneAt (assignAlias (assignFresh s ("probs") (softmax ov))
    ("output_delta") ("probs")) ("output_delta") Y

theorem bump_zero {r c : ℕ} (M : Fin r → Fin c → ℝ) (j : Fin r) (k : Fin c) :
    bump M j k 0 = M := by
  funext q m
  simp [bump]

theorem sum_mul_single {r : ℕ} (f : Fin r → ℝ) (j : Fin r) (a : ℝ) :
    ∑ m, f m * ((if m = j then (1 : ℝ) else 0) * a) = f j * a := by
  rw [Finset.sum_congr rfl fun m _ => show f m * ((if m = j then (1 : ℝ) else 0) * a) =
    if m = j then f m * a else 0 from by by_cases hm : m = j <;> simp [hm]]
  simp

theorem hasDerivAt_affine (A B : ℝ) : HasDerivAt (fun t : ℝ => A + B * t) B 0 := by
  simpa using ((hasDerivAt_id (0 : ℝ)).const_mul B).const_add A

/-- The derivative of tanh used on line 177 of the notebook:
`tanh' = 1 - tanh ^ 2`. -/
theorem hasDerivAt_tanh (x : ℝ) : HasDerivAt Real.tanh (1 - Real.tanh x ^ 2) x := by
  have h := ((Real.hasDerivAt_sinh x).div (Real.hasDerivAt_cosh x)
    (ne_of_gt (Real.cosh_pos x)))
  have heq : (fun y => Real.sinh y / Real.cosh y) = Real.tanh := by
    funext y
    rw [Real.tanh_eq_sinh_div_cosh]
  rw [heq] at h
  have hval : (Real.cosh x * Real.cosh x - Real.sinh x * Real.sinh x) /
      Real.cosh x ^ 2 = 1 - Real.tanh x ^ 2 := by
    rw [Real.tanh_eq_sinh_div_cosh]
    have hc := ne_of_gt (Real.cosh_pos x)
    field_simp
    nlinarith [Real.cosh_sq_sub_sinh_sq x]
  rw [hval] at h
  exact h

/-- Row-wise: minus the log of a softmax entry is the log-sum-exp of the row
minus the entry. -/
theorem neg_log_softmax {n o : ℕ} (z : Fin n → Fin o → ℝ) (i : Fin n) (y : Fin o) :
    -Real.log (softmax z i y) = Real.log (∑ c, Real.exp (z i c)) - z i y := by
  have hne : Nonempty (Fin o) := ⟨y⟩
  have hS : 0 < ∑ c, Real.exp (z i c) :=
    Finset.sum_pos (fun c _ => Real.exp_pos _) Finset.univ_nonempty
  unfold softmax
  rw [Real.log_div (Real.exp_ne_zero _) (ne_of_gt hS), Real.log_exp]
  ring

/-- The summed training cross-entropy in log-sum-exp form. -/
theorem trainLoss_eq {n d h o : ℕ} (X : Fin n → Fin d → ℝ) (Y : Fin n → Fin o)
    (p : Params d h o) :
    trainLoss X Y p = ∑ i, (Real.log (∑ c, Real.exp (output_values X p i c)) -
      output_values X p i (Y i)) :=
  Finset.sum_congr rfl fun i _ => neg_log_softmax (output_values X p) i (Y i)

/-- Derivative of the summed softmax cross-entropy along any one-parameter
family of logits: if each logit `z t i c` moves with velocity `v i c` at
`t = 0`, the loss moves with velocity
`sum_i sum_c (softmax(z 0) i c - onehot i c) * v i c`. -/
theorem hasDerivAt_ceLoss {n o : ℕ} (Y : Fin n → Fin o)
    (z : ℝ → Fin n → Fin o → ℝ) (v : Fin n → Fin o → ℝ)
    (hz : ∀ i c, HasDerivAt (fun t => z t i c) (v i c) 0) :
    HasDerivAt (fun t => ∑ i, (Real.log (∑ c, Real.exp (z t i c)) - z t i (Y i)))
      (∑ i, ∑ c, (softmax (z 0) i c - if Y i = c then 1 else 0) * v i c) 0 := by
  apply HasDerivAt.sum
  intro i _
  have hne : Nonempty (Fin o) := ⟨Y i⟩
  have hS : 0 < ∑ c, Real.exp (z 0 i c) :=
    Finset.sum_pos (fun c _ => Real.exp_pos _) Finset.univ_nonempty
  have hsum : HasDerivAt (fun t => ∑ c, Real.exp (z t i c))
      (∑ c, Real.exp (z 0 i c) * v i c) 0 :=
    HasDerivAt.sum fun c _ => (hz i c).exp
  have h2 := (hsum.log (ne_of_gt hS)).sub (hz i (Y i))
  have hval : (∑ c, Real.exp (z 0 i c) * v i c) / (∑ c, Real.exp (z 0 i c)) -
      v i (Y i) = ∑ c, (softmax (z 0) i c - if Y i = c then 1 else 0) * v i c := by
    have hsplit : ∑ c, (softmax (z 0) i c - if Y i = c then 1 else 0) * v i c =
        (∑ c, softmax (z 0) i c * v i c) -
          ∑ c, (if Y i = c then (1 : ℝ) else 0) * v i c := by
      rw [← Finset.sum_sub_distrib]
      exact Finset.sum_congr rfl fun c _ => by ring
    rw [hsplit]
    congr 1
    · unfold softmax
      rw [Finset.sum_div]
      exact (Finset.sum_congr rfl fun c _ => by ring).symm
    · rw [Finset.sum_congr rfl fun c _ => show (if Y i = c then (1 : ℝ) else 0) *
        v i c = if Y i = c then v i c else 0 from by by_cases hc : Y i = c <;> simp [hc]]
      simp
  exact hval ▸ h2

/-- The mutated `output_delta` array equals the forward-pass probabilities
minus the one-hot label encoding. -/
theorem output_delta_eq_sub {n d h o : ℕ} (X : Fin n → Fin d → ℝ)
    (Y : Fin n → Fin o) (p : Params d h o) :
    output_delta X Y p = fun i c => probsFwd X p i c - onehot Y i c := by
  funext i c
  unfold output_delta onehot
  by_cases hc : c = Y i
  · rw [if_pos hc, if_pos hc.symm]
  · rw [if_neg hc, if_neg (fun hh => hc hh.symm)]
    ring

/-- Subtracting the one-hot encoding from the softmax probabilities gives
exactly the mutated `output_delta` array. -/
theorem softmax_sub_onehot {n d h o : ℕ} (X : Fin n → Fin d → ℝ)
    (Y : Fin n → Fin o) (p : Params d h o) (i : Fin n) (c : Fin o) :
    softmax (output_values X p) i c - (if Y i = c then (1 : ℝ) else 0) =
      output_delta X Y p i c := by
  unfold output_delta probsFwd
  by_cases hic : Y i = c
  · rw [if_pos hic, if_pos hic.symm]
  · rw [if_neg hic, if_neg fun hh => hic hh.symm]
    ring

/-- The delta `output_weights_delta` is the partial derivative of the summed
training cross-entropy with respect to each entry of `output_weights`. -/
theorem hasDerivAt_trainLoss_OW {n d h o : ℕ} (X : Fin n → Fin d → ℝ)
    (Y : Fin n → Fin o) (p : Params d h o) (j : Fin h) (k : Fin o) :
    HasDerivAt (fun t => trainLoss X Y { p with OW := bump p.OW j k t })
      (output_weights_delta X Y p j k) 0 := by
  set z : ℝ → Fin n → Fin o → ℝ :=
    fun t => output_values X { p with OW := bump p.OW j k t } with hzdef
  set v : Fin n → Fin o → ℝ :=
    fun i c => hidden_activations X p i j * (if c = k then (1 : ℝ) else 0) with hvdef
  have hz : ∀ i c, HasDerivAt (fun t => z t i c) (v i c) 0 := by
    intro i c
    show HasDerivAt (fun t => output_values X { p with OW := bump p.OW j k t } i c)
      (hidden_activations X p i j * (if c = k then (1 : ℝ) else 0)) 0
    have heq : (fun t => output_values X { p with OW := bump p.OW j k t } i c) =
        fun t => output_values X p i c +
          hidden_activations X p i j * (if c = k then (1 : ℝ) else 0) * t := by
      funext t
      show (∑ m, hidden_activations X p i m * bump p.OW j k t m c) + p.OB 0 c =
        output_values X p i c +
          hidden_activations X p i j * (if c = k then (1 : ℝ) else 0) * t
      rw [Finset.sum_congr rfl fun m _ => show
          hidden_activations X p i m * bump p.OW j k t m c =
            hidden_activations X p i m * p.OW m c +
            hidden_activations X p i m *
              ((if m = j then (1 : ℝ) else 0) * ((if c = k then (1 : ℝ) else 0) * t))
          from by unfold bump; ring]
      rw [Finset.sum_add_distrib,
        sum_mul_single (fun m => hidden_activations X p i m) j
          ((if c = k then (1 : ℝ) else 0) * t)]
      unfold output_values npDot
      ring
    rw [heq]
    exact hasDerivAt_affine _ _
  have hca := hasDerivAt_ceLoss Y z v hz
  have hz0 : z 0 = output_values X p := by
    show output_values X { p with OW := bump p.OW j k 0 } = output_values X p
    rw [bump_zero]
  rw [hz0] at hca
  have hval : ∑ i, ∑ c, (softmax (output_values X p) i c -
      if Y i = c then 1 else 0) * v i c = output_weights_delta X Y p j k := by
    show ∑ i, ∑ c, (softmax (output_values X p) i c - if Y i = c then 1 else 0) *
      (hidden_activations X p i j * (if c = k then (1 : ℝ) else 0)) =
      output_weights_delta X Y p j k
    have hinner : ∀ i : Fin n,
        (∑ c, (softmax (output_values X p) i c - if Y i = c then (1 : ℝ) else 0) *
          (hidden_activations X p i j * (if c = k then (1 : ℝ) else 0))) =
        hidden_activations X p i j * output_delta X Y p i k := by
      intro i
      rw [Finset.sum_congr rfl fun c _ => show
          (softmax (output_values X p) i c - if Y i = c then (1 : ℝ) else 0) *
            (hidden_activations X p i j * (if c = k then (1 : ℝ) else 0)) =
          if c = k then (softmax (output_values X p) i c -
            if Y i = c then (1 : ℝ) else 0) * hidden_activations X p i j else 0
          from by by_cases hck : c = k <;> simp [hck]]
      rw [Finset.sum_ite_eq']
      simp only [Finset.mem_univ, if_true]
      unfold output_delta probsFwd
      by_cases hik : Y i = k
      · rw [if_pos hik, if_pos hik.symm]
        ring
      · rw [if_neg hik, if_neg fun hh => hik hh.symm]
        ring
    rw [Finset.sum_congr rfl fun i _ => hinner i]
    simp only [output_weights_delta, npDot, npT]
  rw [hval] at hca
  have hfun : (fun t => trainLoss X Y { p with OW := bump p.OW j k t }) =
      fun t => ∑ i, (Real.log (∑ c, Real.exp (z t i c)) - z t i (Y i)) := by
    funext t
    exact trainLoss_eq X Y { p with OW := bump p.OW j k t }
  rw [hfun]
  exact hca

/-- The delta `output_bias_delta` is the partial derivative of the summed training
cross-entropy with respect to each entry of `output_bias`. -/
theorem hasDerivAt_trainLoss_OB {n d h o : ℕ} (X : Fin n → Fin d → ℝ)
    (Y : Fin n → Fin o) (p : Params d h o) (k : Fin o) :
    HasDerivAt (fun t => trainLoss X Y { p with OB := bump p.OB 0 k t })
      (output_bias_delta X Y p 0 k) 0 := by
  set z : ℝ → Fin n → Fin o → ℝ :=
    fun t => output_values X { p with OB := bump p.OB 0 k t } with hzdef
  set v : Fin n → Fin o → ℝ :=
    fun _ c => if c = k then (1 : ℝ) else 0 with hvdef
  have hz : ∀ i c, HasDerivAt (fun t => z t i c) (v i c) 0 := by
    intro i c
    show HasDerivAt (fun t => output_values X { p with OB := bump p.OB 0 k t } i c)
      (if c = k then (1 : ℝ) else 0) 0
    have heq : (fun t => output_values X { p with OB := bump p.OB 0 k t } i c) =
        fun t => output_values X p i c + (if c = k then (1 : ℝ) else 0) * t := by
      funext t
      show (∑ m, hidden_activations X p i m * p.OW m c) + bump p.OB 0 k t 0 c =
        output_values X p i c + (if c = k then (1 : ℝ) else 0) * t
      unfold bump output_values npDot
      norm_num
      ring
    rw [heq]
    exact hasDerivAt_affine _ _
  have hca := hasDerivAt_ceLoss Y z v hz
  have hz0 : z 0 = output_values X p := by
    show output_values X { p with OB := bump p.OB 0 k 0 } = output_values X p
    rw [bump_zero]
  rw [hz0] at hca
  have hval : ∑ i, ∑ c, (softmax (output_values X p) i c -
      if Y i = c then 1 else 0) * v i c = output_bias_delta X Y p 0 k := by
    show ∑ i, ∑ c, (softmax (output_values X p) i c - if Y i = c then 1 else 0) *
      (if c = k then (1 : ℝ) else 0) = output_bias_delta X Y p 0 k
    have hinner : ∀ i : Fin n,
        (∑ c, (softmax (output_values X p) i c - if Y i = c then (1 : ℝ) else 0) *
          (if c = k then (1 : ℝ) else 0)) = output_delta X Y p i k := by
      intro i
      rw [Finset.sum_congr rfl fun c _ => show
          (softmax (output_values X p) i c - if Y i = c then (1 : ℝ) else 0) *
            (if c = k then (1 : ℝ) else 0) =
          if c = k then softmax (output_values X p) i c -
            (if Y i = c then (1 : ℝ) else 0) else 0
          from by by_cases hck : c = k <;> simp [hck]]
      rw [Finset.sum_ite_eq']
      simp only [Finset.mem_univ, if_true]
      exact softmax_sub_onehot X Y p i k
    rw [Finset.sum_congr rfl fun i _ => hinner i]
    simp only [output_bias_delta]
  rw [hval] at hca
  have hfun : (fun t => trainLoss X Y { p with OB := bump p.OB 0 k t }) =
      fun t => ∑ i, (Real.log (∑ c, Real.exp (z t i c)) - z t i (Y i)) := by
    funext t
    exact trainLoss_eq X Y { p with OB := bump p.OB 0 k t }
  rw [hfun]
  exact hca

/-- The delta `hidden_weights_delta` is the partial derivative of the summed training
cross-entropy with respect to each entry of `hidden_weights`. -/
theorem hasDerivAt_trainLoss_HW {n d h o : ℕ} (X : Fin n → Fin d → ℝ)
    (Y : Fin n → Fin o) (p : Params d h o) (j : Fin d) (k : Fin h) :
    HasDerivAt (fun t => trainLoss X Y { p with HW := bump p.HW j k t })
      (hidden_weights_delta X Y p j k) 0 := by
  set z : ℝ → Fin n → Fin o → ℝ :=
    fun t => output_values X { p with HW := bump p.HW j k t } with hzdef
  set v : Fin n → Fin o → ℝ :=
    fun i c => (1 - hidden_activations X p i k ^ 2) * X i j * p.OW k c with hvdef
  have hz : ∀ i c, HasDerivAt (fun t => z t i c) (v i c) 0 := by
    intro i c
    show HasDerivAt (fun t => output_values X { p with HW := bump p.HW j k t } i c)
      ((1 - hidden_activations X p i k ^ 2) * X i j * p.OW k c) 0
    have heq : (fun t => output_values X { p with HW := bump p.HW j k t } i c) =
        fun t => (∑ m, Real.tanh (hidden_values X p i m +
          X i j * (if m = k then (1 : ℝ) else 0) * t) * p.OW m c) + p.OB 0 c := by
      funext t
      show (∑ m, Real.tanh ((∑ q, X i q * bump p.HW j k t q m) + p.Hb 0 m) *
        p.OW m c) + p.OB 0 c = _
      have hhv : ∀ m : Fin h, (∑ q, X i q * bump p.HW j k t q m) + p.Hb 0 m =
          hidden_values X p i m + X i j * (if m = k then (1 : ℝ) else 0) * t := by
        intro m
        rw [Finset.sum_congr rfl fun q _ => show
            X i q * bump p.HW j k t q m = X i q * p.HW q m +
              X i q * ((if q = j then (1 : ℝ) else 0) *
                ((if m = k then (1 : ℝ) else 0) * t))
            from by unfold bump; ring]
        rw [Finset.sum_add_distrib,
          sum_mul_single (fun q => X i q) j ((if m = k then (1 : ℝ) else 0) * t)]
        unfold hidden_values npDot
        ring
      exact congrArg (· + p.OB 0 c)
        (Finset.sum_congr rfl fun m _ => by rw [hhv m])
    have hterm : ∀ m : Fin h, HasDerivAt (fun t => Real.tanh (hidden_values X p i m +
        X i j * (if m = k then (1 : ℝ) else 0) * t) * p.OW m c)
        (((1 - Real.tanh (hidden_values X p i m) ^ 2) *
          (X i j * (if m = k then (1 : ℝ) else 0))) * p.OW m c) 0 := by
      intro m
      have haff := hasDerivAt_affine (hidden_values X p i m)
        (X i j * (if m = k then (1 : ℝ) else 0))
      have htan := (hasDerivAt_tanh (hidden_values X p i m +
        X i j * (if m = k then (1 : ℝ) else 0) * 0)).comp 0 haff
      simp only [Function.comp, mul_zero, add_zero] at htan
      exact htan.mul_const (p.OW m c)
    have hsum := (HasDerivAt.sum fun m (_ : m ∈ Finset.univ) =>
      hterm m).add_const (p.OB 0 c)
    have hcollapse : ∑ m, ((1 - Real.tanh (hidden_values X p i m) ^ 2) *
        (X i j * (if m = k then (1 : ℝ) else 0))) * p.OW m c =
        (1 - hidden_activations X p i k ^ 2) * X i j * p.OW k c := by
      rw [Finset.sum_congr rfl fun m _ => show
          ((1 - Real.tanh (hidden_values X p i m) ^ 2) *
            (X i j * (if m = k then (1 : ℝ) else 0))) * p.OW m c =
          if m = k then (1 - Real.tanh (hidden_values X p i m) ^ 2) * X i j *
            p.OW m c else 0
          from by
        by_cases hmk : m = k
        · subst hmk
          simp
        · simp [hmk]]
      rw [Finset.sum_ite_eq']
      simp only [Finset.mem_univ, if_true]
      rfl
    rw [heq, ← hcollapse]
    exact hsum
  have hca := hasDerivAt_ceLoss Y z v hz
  have hz0 : z 0 = output_values X p := by
    show output_values X { p with HW := bump p.HW j k 0 } = output_values X p
    rw [bump_zero]
  rw [hz0] at hca
  have hval : ∑ i, ∑ c, (softmax (output_values X p) i c -
      if Y i = c then 1 else 0) * v i c = hidden_weights_delta X Y p j k := by
    show ∑ i, ∑ c, (softmax (output_values X p) i c - if Y i = c then 1 else 0) *
      ((1 - hidden_activations X p i k ^ 2) * X i j * p.OW k c) =
      hidden_weights_delta X Y p j k
    have hinner : ∀ i : Fin n,
        (∑ c, (softmax (output_values X p) i c - if Y i = c then (1 : ℝ) else 0) *
          ((1 - hidden_activations X p i k ^ 2) * X i j * p.OW k c)) =
        X i j * hidden_delta X Y p i k := by
      intro i
      rw [Finset.sum_congr rfl fun c _ => by rw [softmax_sub_onehot X Y p i c]]
      simp only [hidden_delta, npDot, npT]
      calc ∑ c, output_delta X Y p i c *
            ((1 - hidden_activations X p i k ^ 2) * X i j * p.OW k c)
          = (∑ c, output_delta X Y p i c * p.OW k c) *
            ((1 - hidden_activations X p i k ^ 2) * X i j) := by
            rw [Finset.sum_mul]
            exact Finset.sum_congr rfl fun c _ => by ring
        _ = X i j * ((∑ c, output_delta X Y p i c * p.OW k c) *
            (1 - hidden_activations X p i k ^ 2)) := by ring
    rw [Finset.sum_congr rfl fun i _ => hinner i]
    simp only [hidden_weights_delta, npDot, npT]
  rw [hval] at hca
  have hfun : (fun t => trainLoss X Y { p with HW := bump p.HW j k t }) =
      fun t => ∑ i, (Real.log (∑ c, Real.exp (z t i c)) - z t i (Y i)) := by
    funext t
    exact trainLoss_eq X Y { p with HW := bump p.HW j k t }
  rw [hfun]
  exact hca

/-- The delta `hidden_bias_delta` is the partial derivative of the summed training
cross-entropy with respect to each entry of `hidden_bias`. -/
theorem hasDerivAt_trainLoss_Hb {n d h o : ℕ} (X : Fin n → Fin d → ℝ)
    (Y : Fin n → Fin o) (p : Params d h o) (k : Fin h) :
    HasDerivAt (fun t => trainLoss X Y { p with Hb := bump p.Hb 0 k t })
      (hidden_bias_delta X Y p k) 0 := by
  set z : ℝ → Fin n → Fin o → ℝ :=
    fun t => output_values X { p with Hb := bump p.Hb 0 k t } with hzdef
  set v : Fin n → Fin o → ℝ :=
    fun i c => (1 - hidden_activations X p i k ^ 2) * p.OW k c with hvdef
  have hz : ∀ i c, HasDerivAt (fun t => z t i c) (v i c) 0 := by
    intro i c
    show HasDerivAt (fun t => output_values X { p with Hb := bump p.Hb 0 k t } i c)
      ((1 - hidden_activations X p i k ^ 2) * p.OW k c) 0
    have heq : (fun t => output_values X { p with Hb := bump p.Hb 0 k t } i c) =
        fun t => (∑ m, Real.tanh (hidden_values X p i m +
          (if m = k then (1 : ℝ) else 0) * t) * p.OW m c) + p.OB 0 c := by
      funext t
      show (∑ m, Real.tanh ((∑ q, X i q * p.HW q m) + bump p.Hb 0 k t 0 m) *
        p.OW m c) + p.OB 0 c = _
      have hhv : ∀ m : Fin h, (∑ q, X i q * p.HW q m) + bump p.Hb 0 k t 0 m =
          hidden_values X p i m + (if m = k then (1 : ℝ) else 0) * t := by
        intro m
        unfold bump hidden_values npDot
        simp
        ring
      exact congrArg (· + p.OB 0 c)
        (Finset.sum_congr rfl fun m _ => by rw [hhv m])
    have hterm : ∀ m : Fin h, HasDerivAt (fun t => Real.tanh (hidden_values X p i m +
        (if m = k then (1 : ℝ) else 0) * t) * p.OW m c)
        (((1 - Real.tanh (hidden_values X p i m) ^ 2) *
          (if m = k then (1 : ℝ) else 0)) * p.OW m c) 0 := by
      intro m
      have haff := hasDerivAt_affine (hidden_values X p i m)
        (if m = k then (1 : ℝ) else 0)
      have htan := (hasDerivAt_tanh (hidden_values X p i m +
        (if m = k then (1 : ℝ) else 0) * 0)).comp 0 haff
      simp only [Function.comp, mul_zero, add_zero] at htan
      exact htan.mul_const (p.OW m c)
    have hsum := (HasDerivAt.sum fun m (_ : m ∈ Finset.univ) =>
      hterm m).add_const (p.OB 0 c)
    have hcollapse : ∑ m, ((1 - Real.tanh (hidden_values X p i m) ^ 2) *
        (if m = k then (1 : ℝ) else 0)) * p.OW m c =
        (1 - hidden_activations X p i k ^ 2) * p.OW k c := by
      rw [Finset.sum_congr rfl fun m _ => show
          ((1 - Real.tanh (hidden_values X p i m) ^ 2) *
            (if m = k then (1 : ℝ) else 0)) * p.OW m c =
          if m = k then (1 - Real.tanh (hidden_values X p i m) ^ 2) *
            p.OW m c else 0
          from by
        by_cases hmk : m = k
        · subst hmk
          simp
        · simp [hmk]]
      rw [Finset.sum_ite_eq']
      simp only [Finset.mem_univ, if_true]
      rfl
    rw [heq, ← hcollapse]
    exact hsum
  have hca := hasDerivAt_ceLoss Y z v hz
  have hz0 : z 0 = output_values X p := by
    show output_values X { p with Hb := bump p.Hb 0 k 0 } = output_values X p
    rw [bump_zero]
  rw [hz0] at hca
  have hval : ∑ i, ∑ c, (softmax (output_values X p) i c -
      if Y i = c then 1 else 0) * v i c = hidden_bias_delta X Y p k := by
    show ∑ i, ∑ c, (softmax (output_values X p) i c - if Y i = c then 1 else 0) *
      ((1 - hidden_activations X p i k ^ 2) * p.OW k c) =
      hidden_bias_delta X Y p k
    have hinner : ∀ i : Fin n,
        (∑ c, (softmax (output_values X p) i c - if Y i = c then (1 : ℝ) else 0) *
          ((1 - hidden_activations X p i k ^ 2) * p.OW k c)) =
        hidden_delta X Y p i k := by
      intro i
      rw [Finset.sum_congr rfl fun c _ => by rw [softmax_sub_onehot X Y p i c]]
      simp only [hidden_delta, npDot, npT]
      rw [Finset.sum_mul]
      exact Finset.sum_congr rfl fun c _ => by ring
    rw [Finset.sum_congr rfl fun i _ => hinner i]
    simp only [hidden_bias_delta]
  rw [hval] at hca
  have hfun : (fun t => trainLoss X Y { p with Hb := bump p.Hb 0 k t }) =
      fun t => ∑ i, (Real.log (∑ c, Real.exp (z t i c)) - z t i (Y i)) := by
    funext t
    exact trainLoss_eq X Y { p with Hb := bump p.Hb 0 k t }
  rw [hfun]
  exact hca

/-- C9: for every real input matrix with at least one column, every row of
`softmax(values)` has nonnegative entries that sum to 1, so each forward
pass outputs a probability distribution over the classes for every
example. -/
theorem softmax_rows_are_distributions {n m : ℕ} (values : Fin n → Fin m → ℝ)
    (hm : 0 < m) (i : Fin n) :
    (∀ j, 0 ≤ softmax values i j) ∧ (∑ j, softmax values i j) = 1 := by
  have hne : Nonempty (Fin m) := Fin.pos_iff_nonempty.mp hm
  have hS : 0 < ∑ k, Real.exp (values i k) :=
    Finset.sum_pos (fun k _ => Real.exp_pos _) Finset.univ_nonempty
  constructor
  · intro j
    exact div_nonneg (Real.exp_nonneg _) hS.le
  · unfold softmax
    rw [← Finset.sum_div, div_self (ne_of_gt hS)]

/-- Witness for C9 at the concrete 1-by-1 zero matrix. -/
theorem softmax_rows_are_distributions_witness :
    0 < 1 ∧ ((∀ j, 0 ≤ softmax (fun (_ : Fin 1) (_ : Fin 1) => (0 : ℝ)) 0 j) ∧
      (∑ j, softmax (fun (_ : Fin 1) (_ : Fin 1) => (0 : ℝ)) 0 j) = 1) :=
  ⟨by decide, softmax_rows_are_distributions _ (by decide) 0⟩

/-- C4: for every model, input, nonempty integer label vector and
regularization coefficient, `cross_entropy` returns `1 / len(Y)` times
(the summed negated correct-class log-probabilities plus `(r / 2)` times
the sum of squares of `model['HW']` plus the sum of squares of
`model['OW']`); in particular the regularization term is also divided by
the number of examples.  `p` is whatever matrix `predict(model, X,
get_probs=True)` returns, so the statement holds for every `predict`. -/
theorem cross_entropy_eq_spec {n d dd h o : ℕ}
    (predict : Params d h o → (Fin n → Fin dd → ℝ) → Fin n → Fin o → ℝ)
    (model : Params d h o) (X : Fin n → Fin dd → ℝ) (Y : Fin n → Fin o)
    (r : ℝ) (_hn : 0 < n) :
    cross_entropy predict model X Y r =
      cross_entropy_spec model (predict model X) Y r :=
  rfl

/-- Witness for C4 at a concrete one-example input. -/
theorem cross_entropy_eq_spec_witness :
    0 < 1 ∧
      @cross_entropy 1 1 1 1 1
        (fun _ _ => fun _ _ => (1 : ℝ))
        (Params.mk (fun _ _ => 0) (fun _ _ => 0) (fun _ _ => 0) (fun _ _ => 0))
        (fun _ _ => 0) (fun _ => 0) 0 =
      @cross_entropy_spec 1 1 1 1
        (Params.mk (fun _ _ => 0) (fun _ _ => 0) (fun _ _ => 0) (fun _ _ => 0))
        (fun _ _ => (1 : ℝ)) (fun _ => 0) 0 :=
  ⟨by decide, cross_entropy_eq_spec _ _ _ _ _ (by decide)⟩

/-- C1: in every epoch of `build_model`'s training loop (at the parameters
`epochParams … e` the epoch starts from), the forward pass computes
`hidden_activations = tanh(X_train.dot(hidden_weights) + hidden_bias)` and
`probs = softmax(hidden_activations.dot(output_weights) + output_bias)`,
with `softmax` the row-normalized exponential defined in the notebook. -/
theorem forward_pass_eq {n d h o : ℕ} (X : Fin n → Fin d → ℝ)
    (Y : Fin n → Fin o) (lr reg : ℝ) (p0 : Params d h o) (e : ℕ) :
    (hidden_activations X (epochParams X Y lr reg p0 e) = fun i j =>
      Real.tanh (npDot X (epochParams X Y lr reg p0 e).HW i j +
        (epochParams X Y lr reg p0 e).Hb 0 j))
    ∧ probsFwd X (epochParams X Y lr reg p0 e) =
      softmax (fun i c =>
        npDot (hidden_activations X (epochParams X Y lr reg p0 e))
          (epochParams X Y lr reg p0 e).OW i c +
        (epochParams X Y lr reg p0 e).OB 0 c) :=
  ⟨rfl, rfl⟩

/-- C2: in every epoch of the training loop (at the parameters
`epochParams … e` the epoch starts from), the backward pass is standard
backpropagation for softmax with cross-entropy and a tanh hidden layer:
`output_delta` equals `probs` minus the one-hot encoding of `Y_train`;
`hidden_delta` equals `(output_delta · output_weightsᵀ) ⊙
(1 − hidden_activations²)`; and each of the four parameter deltas is the
gradient of the summed, unregularized cross-entropy `trainLoss` of the
forward pass with respect to the corresponding parameter — stated
entrywise: perturbing any single entry of the parameter by `t` (`bump`)
changes the loss, at `t = 0`, at exactly the rate the delta records for
that entry. -/
theorem backward_pass_correct {n d h o : ℕ} (X : Fin n → Fin d → ℝ)
    (Y : Fin n → Fin o) (lr reg : ℝ) (p0 : Params d h o) (e : ℕ) :
    (output_delta X Y (epochParams X Y lr reg p0 e) = fun i c =>
      probsFwd X (epochParams X Y lr reg p0 e) i c - onehot Y i c)
    ∧ (hidden_delta X Y (epochParams X Y lr reg p0 e) = fun i kk =>
      npDot (output_delta X Y (epochParams X Y lr reg p0 e))
        (npT (epochParams X Y lr reg p0 e).OW) i kk *
        (1 - hidden_activations X (epochParams X Y lr reg p0 e) i kk ^ 2))
    ∧ (∀ j k, HasDerivAt (fun t => trainLoss X Y
        { epochParams X Y lr reg p0 e with
          OW := bump (epochParams X Y lr reg p0 e).OW j k t })
        (output_weights_delta X Y (epochParams X Y lr reg p0 e) j k) 0)
    ∧ (∀ k, HasDerivAt (fun t => trainLoss X Y
        { epochParams X Y lr reg p0 e with
          OB := bump (epochParams X Y lr reg p0 e).OB 0 k t })
        (output_bias_delta X Y (epochParams X Y lr reg p0 e) 0 k) 0)
    ∧ (∀ j k, HasDerivAt (fun t => trainLoss X Y
        { epochParams X Y lr reg p0 e with
          HW := bump (epochParams X Y lr reg p0 e).HW j k t })
        (hidden_weights_delta X Y (epochParams X Y lr reg p0 e) j k) 0)
    ∧ (∀ k, HasDerivAt (fun t => trainLoss X Y
        { epochParams X Y lr reg p0 e with
          Hb := bump (epochParams X Y lr reg p0 e).Hb 0 k t })
        (hidden_bias_delta X Y (epochParams X Y lr reg p0 e) k) 0) :=
  ⟨output_delta_eq_sub X Y _, rfl,
    fun j k => hasDerivAt_trainLoss_OW X Y _ j k,
    fun k => hasDerivAt_trainLoss_OB X Y _ k,
    fun j k => hasDerivAt_trainLoss_HW X Y _ j k,
    fun k => hasDerivAt_trainLoss_Hb X Y _ k⟩

/-- C3: in every epoch of the training loop, the update step replaces each
of the four parameter arrays by its previous value minus `learning_rate`
times its delta (for the two weight matrices the delta holds the
regularization term added on lines 184-185), and since the `Params` state
consists of exactly these four arrays, nothing else is changed. -/
theorem update_step_eq {n d h o : ℕ} (X : Fin n → Fin d → ℝ)
    (Y : Fin n → Fin o) (lr reg : ℝ) (p0 : Params d h o) (e : ℕ) :
    epochStep X Y lr reg (epochParams X Y lr reg p0 e) =
      { HW := fun q m => (epochParams X Y lr reg p0 e).HW q m -
          lr * hidden_weights_delta_reg X Y reg (epochParams X Y lr reg p0 e) q m
        Hb := fun r m => (epochParams X Y lr reg p0 e).Hb r m -
          lr * hidden_bias_delta X Y (epochParams X Y lr reg p0 e) m
        OW := fun q m => (epochParams X Y lr reg p0 e).OW q m -
          lr * output_weights_delta_reg X Y reg (epochParams X Y lr reg p0 e) q m
        OB := fun r m => (epochParams X Y lr reg p0 e).OB r m -
          lr * output_bias_delta X Y (epochParams X Y lr reg p0 e) r m } := by
  ext q m <;> · show _ + -lr * _ = _ - lr * _; ring

/-- C5: in every epoch, the regularization step adds
`regularization * output_weights` to `output_weights_delta` and
`regularization * hidden_weights` to `hidden_weights_delta`, while the two
bias deltas are left unchanged: the update step consumes
`output_bias_delta` and `hidden_bias_delta` exactly as the backward pass
produced them, with no regularization term. -/
theorem regularization_step_eq {n d h o : ℕ} (X : Fin n → Fin d → ℝ)
    (Y : Fin n → Fin o) (lr reg : ℝ) (p0 : Params d h o) (e : ℕ) :
    (output_weights_delta_reg X Y reg (epochParams X Y lr reg p0 e) = fun j k =>
      output_weights_delta X Y (epochParams X Y lr reg p0 e) j k +
        reg * (epochParams X Y lr reg p0 e).OW j k)
    ∧ (hidden_weights_delta_reg X Y reg (epochParams X Y lr reg p0 e) = fun j k =>
      hidden_weights_delta X Y (epochParams X Y lr reg p0 e) j k +
        reg * (epochParams X Y lr reg p0 e).HW j k)
    ∧ ((epochStep X Y lr reg (epochParams X Y lr reg p0 e)).OB = fun r m =>
      (epochParams X Y lr reg p0 e).OB r m -
        lr * output_bias_delta X Y (epochParams X Y lr reg p0 e) r m)
    ∧ ((epochStep X Y lr reg (epochParams X Y lr reg p0 e)).Hb = fun r m =>
      (epochParams X Y lr reg p0 e).Hb r m -
        lr * hidden_bias_delta X Y (epochParams X Y lr reg p0 e) m) := by
  refine ⟨rfl, rfl, ?_, ?_⟩ <;> · funext r m; show _ + -lr * _ = _ - lr * _; ring

/-- C8 counterexample: at concrete (zero) parameter arrays, the key `'HB'`
is a key of the dictionary rebuilt each epoch but not of the dictionary
built at initialization (which spells the hidden-bias key `'Hb'`), so the
two dictionaries do not carry the same key set. -/
theorem model_dict_keys_cex :
    ("HB") ∈ dictKeys (epochModelDict (d := 1) (h := 1) (o := 1)
        (fun _ _ => 0) (fun _ _ => 0) (fun _ _ => 0) (fun _ _ => 0))
    ∧ ("HB") ∉ dictKeys (initialModelDict (d := 1) (h := 1) (o := 1)
        (fun _ _ => 0) (fun _ _ => 0) (fun _ _ => 0) (fun _ _ => 0)) := by
  constructor <;> decide

/-- C8 amended: the dictionary built at initialization has exactly the keys
`['HW', 'Hb', 'OW', 'OB']` while the dictionary rebuilt after every
epoch's update has exactly the keys `['HW', 'HB', 'OW', 'OB']`; both have
four keys, but the hidden-bias key is spelled differently. -/
theorem model_dict_keys_amended {d h o : ℕ} (hw : Fin d → Fin h → ℝ)
    (hb : Fin 1 → Fin h → ℝ) (ow : Fin h → Fin o → ℝ) (ob : Fin 1 → Fin o → ℝ) :
    dictKeys (initialModelDict hw hb ow ob) = ["HW", "Hb", "OW", "OB"]
    ∧ dictKeys (epochModelDict hw hb ow ob) = ["HW", "HB", "OW", "OB"] :=
  ⟨rfl, rfl⟩

/-- C7 counterexample: the code cells of the linear-algebra notebook are not
independent; concretely, cell 3 (the `build_model` invocation) refers to
the name `build_model` defined by cell 2, cell 1 refers to `np` bound by
the import cell, and so on. -/
theorem cells_not_independent : ¬ cellsIndependent linalgCells := by
  intro h
  exact h ⟨3, by decide⟩ ⟨2, by decide⟩ (by decide) ("build_model")
    (by decide) (by decide)

/-- C7 amended: the code cells are not all independent: in the
linear-algebra notebook, the invocation cell (index 3) refers to the name
`build_model`, which is defined by the preceding cell (index 2), and the
softmax/cross-entropy cell (index 1) refers to the name `np`, bound by
the import cell (index 0). -/
theorem cells_depend_on_earlier :
    ¬ cellsIndependent linalgCells
    ∧ ("build_model") ∈ (linalgCells.get ⟨3, by decide⟩).uses
    ∧ ("build_model") ∈ (linalgCells.get ⟨2, by decide⟩).defines
    ∧ ("np") ∈ (linalgCells.get ⟨1, by decide⟩).uses
    ∧ ("np") ∈ (linalgCells.get ⟨0, by decide⟩).defines := by
  refine ⟨fun hind => ?_, by decide, by decide, by decide, by decide⟩
  exact hind ⟨3, by decide⟩ ⟨2, by decide⟩ (by decide) ("build_model")
    (by decide) (by decide)

/-- C6: no function of the repository catches, retries or recovers: with
the fallible library steps made explicit, an exception raised by the
`predict` call or by the fancy indexing inside `cross_entropy`, or by
either `extract_data` call inside `build_model`, is returned to the caller
unchanged. -/
theorem errors_propagate_unchanged {n m d h o : ℕ}
    (predictResult : Except String (Fin n → Fin o → ℝ)) (model : Params d h o)
    (Yn : Fin n → ℕ) (r : ℝ)
    (trainExtract : Except String ((Fin n → Fin d → ℝ) × (Fin n → Fin o)))
    (testExtract : Except String ((Fin m → Fin d → ℝ) × (Fin m → Fin o)))
    (epochs : ℕ) (lr reg : ℝ) (p0 : Params d h o) :
    (∀ e, predictResult = Except.error e →
      cross_entropyE predictResult model Yn r = Except.error e)
    ∧ (∀ probs e, predictResult = Except.ok probs →
      fancyIndex probs Yn = Except.error e →
      cross_entropyE predictResult model Yn r = Except.error e)
    ∧ (∀ e, trainExtract = Except.error e →
      build_modelE trainExtract testExtract epochs lr reg p0 = Except.error e)
    ∧ (∀ td e, trainExtract = Except.ok td → testExtract = Except.error e →
      build_modelE trainExtract testExtract epochs lr reg p0 = Except.error e) := by
  refine ⟨?_, ?_, ?_, ?_⟩
  · intro e he
    simp [cross_entropyE, he]
  · intro probs e hok hidx
    simp [cross_entropyE, hok, hidx]
  · intro e he
    simp [build_modelE, he]
  · intro td e hok he
    simp [build_modelE, hok, he]

/-- Witness for C6: each propagation fact exercised at concrete inputs. -/
theorem errors_propagate_unchanged_witness :
    cross_entropyE (n := 1)
      (Except.error ("predict blew up"))
      (Params.mk (d := 1) (h := 1) (o := 1)
        (fun _ _ => 0) (fun _ _ => 0) (fun _ _ => 0) (fun _ _ => 0))
      (fun _ => 0) 0 = Except.error ("predict blew up")
    ∧ cross_entropyE (n := 1)
      (Except.ok (fun _ _ => (1 : ℝ)))
      (Params.mk (d := 1) (h := 1) (o := 1)
        (fun _ _ => 0) (fun _ _ => 0) (fun _ _ => 0) (fun _ _ => 0))
      (fun _ => 5) 0 = Except.error ("IndexError")
    ∧ build_modelE (n := 1) (m := 1)
      (Except.error ("bad train data"))
      (Except.ok (fun _ _ => (0 : ℝ), fun _ => 0)) 3 0 0
      (Params.mk (d := 1) (h := 1) (o := 1)
        (fun _ _ => 0) (fun _ _ => 0) (fun _ _ => 0) (fun _ _ => 0)) =
      Except.error ("bad train data")
    ∧ build_modelE (n := 1) (m := 1)
      (Except.ok (fun _ _ => (0 : ℝ), fun _ => 0))
      (Except.error ("bad test data")) 3 0 0
      (Params.mk (d := 1) (h := 1) (o := 1)
        (fun _ _ => 0) (fun _ _ => 0) (fun _ _ => 0) (fun _ _ => 0)) =
      Except.error ("bad test data") := by
  refine ⟨?_, ?_, ?_, ?_⟩
  · exact (@errors_propagate_unchanged 1 1 1 1 1
      (Except.error ("predict blew up"))
      (Params.mk (fun _ _ => 0) (fun _ _ => 0) (fun _ _ => 0) (fun _ _ => 0))
      (fun _ => 0) 0
      (Except.ok (fun _ _ => (0 : ℝ), fun _ => (0 : Fin 1)))
      (Except.ok (fun _ _ => (0 : ℝ), fun _ => (0 : Fin 1))) 3 0 0
      (Params.mk (fun _ _ => 0) (fun _ _ => 0) (fun _ _ => 0) (fun _ _ => 0))).1
      _ rfl
  · exact (@errors_propagate_unchanged 1 1 1 1 1
      (Except.ok (fun _ _ => (1 : ℝ)))
      (Params.mk (fun _ _ => 0) (fun _ _ => 0) (fun _ _ => 0) (fun _ _ => 0))
      (fun _ => 5) 0
      (Except.ok (fun _ _ => (0 : ℝ), fun _ => (0 : Fin 1)))
      (Except.ok (fun _ _ => (0 : ℝ), fun _ => (0 : Fin 1))) 3 0 0
      (Params.mk (fun _ _ => 0) (fun _ _ => 0) (fun _ _ => 0) (fun _ _ => 0))).2.1
      _ _ rfl
      (by rw [fancyIndex, dif_neg]; intro hall; exact absurd (hall 0) (by decide))
  · exact (@errors_propagate_unchanged 1 1 1 1 1
      (Except.ok (fun _ _ => (1 : ℝ)))
      (Params.mk (fun _ _ => 0) (fun _ _ => 0) (fun _ _ => 0) (fun _ _ => 0))
      (fun _ => 0) 0
      (Except.error ("bad train data"))
      (Except.ok (fun _ _ => (0 : ℝ), fun _ => (0 : Fin 1))) 3 0 0
      (Params.mk (fun _ _ => 0) (fun _ _ => 0) (fun _ _ => 0) (fun _ _ => 0))).2.2.1
      _ rfl
  · exact (@errors_propagate_unchanged 1 1 1 1 1
      (Except.ok (fun _ _ => (1 : ℝ)))
      (Params.mk (fun _ _ => 0) (fun _ _ => 0) (fun _ _ => 0) (fun _ _ => 0))
      (fun _ => 0) 0
      (Except.ok (fun _ _ => (0 : ℝ), fun _ => (0 : Fin 1)))
      (Except.error ("bad test data")) 3 0 0
      (Params.mk (fun _ _ => 0) (fun _ _ => 0) (fun _ _ => 0) (fun _ _ => 0))).2.2.2
      _ _ rfl rfl

/-- C10: after line 171 the variables `output_delta` and `probs` are bound
to the same array object (the assignment copies nothing), so the in-place
subtraction of line 172 leaves `probs` holding not the forward-pass
softmax probabilities but `softmax(output_values)` minus the one-hot
encoding of `Y_train` (a different array whenever there is at least one
training example). -/
theorem probs_aliased_and_mutated {n o : ℕ} (s : Store n o)
    (ov : Fin n → Fin o → ℝ) (Y : Fin n → Fin o) :
    ((backpropAliasSteps s ov Y).env ("output_delta") =
      (backpropAliasSteps s ov Y).env ("probs"))
    ∧ ((backpropAliasSteps s ov Y).heap ((backpropAliasSteps s ov Y).env ("probs")) =
      fun i j => softmax ov i j - onehot Y i j)
    ∧ (0 < n →
      (backpropAliasSteps s ov Y).heap ((backpropAliasSteps s ov Y).env ("probs")) ≠
        softmax ov) := by
  have henv : ∀ z : String,
      (backpropAliasSteps s ov Y).env z =
        if z = "output_delta" then s.next else if z = "probs" then s.next else s.env z := by
    intro z
    simp only [backpropAliasSteps, subOneAt, assignAlias, assignFresh]
    by_cases h1 : z = "output_delta" <;> by_cases h2 : z = "probs" <;>
      simp [h1, h2]
  have hod : (backpropAliasSteps s ov Y).env ("output_delta") = s.next := by
    rw [henv]; simp
  have hpr : (backpropAliasSteps s ov Y).env ("probs") = s.next := by
    rw [henv]; simp
  have hheap : (backpropAliasSteps s ov Y).heap s.next =
      fun i j => softmax ov i j - onehot Y i j := by
    simp only [backpropAliasSteps, subOneAt, assignAlias, assignFresh, onehot]
    simp
  refine ⟨hod.trans hpr.symm, by rw [hpr, hheap], ?_⟩
  intro hn hcontra
  rw [hpr, hheap] at hcontra
  have h0 := congrFun (congrFun hcontra ⟨0, hn⟩) (Y ⟨0, hn⟩)
  simp [onehot] at h0

/-- Witness for C10 on a concrete one-example store. -/
theorem probs_aliased_and_mutated_witness :
    0 < 1 ∧
      (backpropAliasSteps (n := 1) (o := 1)
        (Store.mk (fun _ _ _ => (0 : ℝ)) (fun _ => 0) 0)
        (fun _ _ => (0 : ℝ)) (fun _ => (0 : Fin 1))).heap
        ((backpropAliasSteps (n := 1) (o := 1)
          (Store.mk (fun _ _ _ => (0 : ℝ)) (fun _ => 0) 0)
          (fun _ _ => (0 : ℝ)) (fun _ => (0 : Fin 1))).env ("probs")) ≠
        softmax (fun _ _ => (0 : ℝ)) :=
  ⟨by decide,
    (probs_aliased_and_mutated (n := 1) (o := 1)
      (Store.mk (fun _ _ _ => (0 : ℝ)) (fun _ => 0) 0)
      (fun _ _ => (0 : ℝ)) (fun _ => (0 : Fin 1))).2.2 (by decide)⟩

end

end FFNLinAlg
